import Mathlib

/-!
Verification development for the mingle-logcabin consensus core.

The repository ships the declaration headers `src/Server/RaftLog.h`,
`src/Server/RaftConsensus.h` and `src/Client/Client.h`; the corresponding
`.cc` implementation files are not part of the repository.  Every operation
below is therefore a shallow embedding built from the header declarations
and their documentation comments together with the natural-language
specification (`spec.md`); each such definition carries a doc comment
stating what it is modelled from.
-/

namespace MingleLogCabin

/-- Entry type from `Protocol::Raft::EntryType` (spec §3: `type ∈ {data, configuration}`). -/
inductive EntryType where
  | data
  | configuration
deriving DecidableEq

/-- A server id together with its network address (spec §3: configuration
descriptor lists of `(server_id, address)`). -/
abbrev ServerRef := Nat × String

/-- `Protocol::Raft::Configuration` wire shape (spec §6): a pair of lists
`old_servers`, `new_servers`. -/
structure ConfigurationDescription where
  oldServers : List ServerRef
  newServers : List ServerRef
deriving DecidableEq

/-- `Log::Entry` from `src/Server/RaftLog.h` lines 39-47: entryId, term,
type, opaque data and a configuration descriptor. -/
structure Entry where
  entryId : Nat
  term : Nat
  type : EntryType
  data : String
  configuration : ConfigurationDescription
deriving DecidableEq

/-- `Log` from `src/Server/RaftLog.h`: the in-memory vector of entries,
where "index is EntryId - 1" (line 123). -/
structure Log where
  entries : List Entry
deriving DecidableEq

/-- Modelled from the spec: `RaftLog.cc` is missing.  `Log::getLastLogId`
(`RaftLog.h` lines 77-83): the entry ID of the most recent entry, or 0 if
the log is empty.  With "index is EntryId - 1" this is the vector length. -/
def Log.getLastLogId (l : Log) : Nat :=
  l.entries.length

/-- Modelled from the spec: `RaftLog.cc` is missing.  `Log::append`
(`RaftLog.h` lines 51-58): the argument's entryId is ignored; a new one is
assigned and returned.  Spec §4.1: "Assigns the next id (last_id + 1)". -/
def Log.append (l : Log) (e : Entry) : Log × Nat :=
  (⟨l.entries ++ [{ e with entryId := l.getLastLogId + 1 }]⟩, l.getLastLogId + 1)

/-- Modelled from the spec: `RaftLog.cc` is missing.  `Log::getEntry`
(`RaftLog.h` lines 68-75) looks an entry up by ID, with "index is
EntryId - 1"; rendered total via `Option`. -/
def Log.getEntry? (l : Log) (entryId : Nat) : Option Entry :=
  l.entries[entryId - 1]?

/-- Modelled from the spec: `RaftLog.cc` is missing.  `Log::getTerm`
(`RaftLog.h` lines 85-93): the term of the given entry if it exists, or 0
otherwise (including id 0 and ids past the end). -/
def Log.getTerm (l : Log) (entryId : Nat) : Nat :=
  if entryId = 0 then 0
  else ((l.entries[entryId - 1]?).map Entry.term).getD 0

/-- Modelled from the spec: `RaftLog.cc` is missing.  `Log::truncate`
(`RaftLog.h` lines 95-102): after the call the log contains no entries
with ID greater than `lastEntryId`. -/
def Log.truncate (l : Log) (lastEntryId : Nat) : Log :=
  ⟨l.entries.take lastEntryId⟩

/-- Does this entry carry the same term as the log's last entry?  Used to
delimit the log's trailing run of last-term entries. -/
def lastTermPred (l : Log) (e : Entry) : Bool :=
  e.term == l.getTerm l.getLastLogId

/-- Modelled from the spec: `RaftLog.cc` is missing.
`Log::getBeginLastTermId` (`RaftLog.h` lines 60-66): the entry ID of the
first entry in the log's last term, or 0 if the log is empty.  Computed as
the start of the maximal trailing run of entries sharing the last term. -/
def Log.getBeginLastTermId (l : Log) : Nat :=
  match l.entries with
  | [] => 0
  | _ => (l.entries.reverse.dropWhile (lastTermPred l)).length + 1

/-- The logs constructible through the `Log` interface: starting empty and
applying `append` and `truncate`. -/
inductive Log.Reachable : Log → Prop where
  | empty : Log.Reachable ⟨[]⟩
  | append (l : Log) (e : Entry) : Log.Reachable l → Log.Reachable (l.append e).1
  | truncate (l : Log) (k : Nat) : Log.Reachable l → Log.Reachable (l.truncate k)

/-- Stored ids are contiguous from 1: the entry at vector index `i` has
entryId `i + 1` (`RaftLog.h` line 123: "index is EntryId - 1"). -/
def Log.WellFormed (l : Log) : Prop :=
  ∀ i e, l.entries[i]? = some e → e.entryId = i + 1

theorem Log.WellFormed.append {l : Log} (hl : l.WellFormed) (e : Entry) :
    (l.append e).1.WellFormed := by
  intro i x hx
  simp only [Log.append] at hx
  rcases Nat.lt_or_ge i l.entries.length with hi | hi
  · rw [List.getElem?_append_left hi] at hx
    exact hl i x hx
  · rw [List.getElem?_append_right hi] at hx
    have hlt : i - l.entries.length < 1 := by
      have := List.getElem?_eq_some.mp hx
      simpa using this.1
    have hieq : i = l.entries.length := by omega
    subst hieq
    simp only [Nat.sub_self, List.getElem?_cons_zero, Option.some_inj] at hx
    subst hx
    simp [Log.getLastLogId]

theorem Log.WellFormed.truncate {l : Log} (hl : l.WellFormed) (k : Nat) :
    (l.truncate k).WellFormed := by
  intro i x hx
  simp only [Log.truncate] at hx
  rcases Nat.lt_or_ge i k with hi | hi
  · rw [List.getElem?_take_of_lt hi] at hx
    exact hl i x hx
  · exfalso
    have hlen : i < (l.entries.take k).length := (List.getElem?_eq_some.mp hx).1
    have hle : (l.entries.take k).length ≤ k := List.length_take_le k l.entries
    omega

theorem Log.Reachable.wellFormed {l : Log} (h : l.Reachable) : l.WellFormed := by
  induction h with
  | empty => intro i e h; simp at h
  | append l e _ ih => exact ih.append e
  | truncate l k _ ih => exact ih.truncate k

/-- A demo data entry carrying a junk entryId (42), used to exercise the
"caller-supplied id is ignored" behaviour. -/
def demoEntryA : Entry :=
  { entryId := 42, term := 1, type := .data, data := "A", configuration := ⟨[], []⟩ }

/-- A second demo data entry with a junk entryId. -/
def demoEntryB : Entry :=
  { entryId := 7, term := 1, type := .data, data := "B", configuration := ⟨[], []⟩ }

/-- A two-entry log built through the `Log` interface. -/
def demoLog2 : Log := (((⟨[]⟩ : Log).append demoEntryA).1.append demoEntryB).1

theorem demoLog2_reachable : demoLog2.Reachable :=
  Log.Reachable.append _ demoEntryB (Log.Reachable.append _ demoEntryA Log.Reachable.empty)

/-- C9: `append(e)` assigns and returns `last_id() + 1` — for every `e`,
hence ignoring any id carried by `e` — the stored entry carries that id,
and in any log built through the interface the entry found at id `i` has
entryId exactly `i` for every `i` in `[1, last_id()]` (ids are contiguous
from 1 with no gaps). -/
theorem append_assigns_sequential_ids (l : Log) (hl : l.Reachable) (e : Entry) :
    (l.append e).2 = l.getLastLogId + 1 ∧
    (∀ k, (l.append { e with entryId := k }).2 = l.getLastLogId + 1) ∧
    ((l.append e).1.getEntry? (l.getLastLogId + 1)).map Entry.entryId
      = some (l.getLastLogId + 1) ∧
    (∀ i, 1 ≤ i → i ≤ l.getLastLogId → (l.getEntry? i).map Entry.entryId = some i) := by
  refine ⟨rfl, fun k => rfl, ?_, ?_⟩
  · simp only [Log.append, Log.getEntry?, Log.getLastLogId, Nat.add_sub_cancel]
    rw [List.getElem?_append_right (Nat.le_refl _)]
    simp
  · intro i h1 h2
    have hw := hl.wellFormed
    have hlt : i - 1 < l.entries.length := by
      simp only [Log.getLastLogId] at h2
      omega
    have hsome : l.entries[i - 1]? = some l.entries[i - 1] := List.getElem?_eq_getElem hlt
    have hid := hw (i - 1) _ hsome
    have hi : i - 1 + 1 = i := by omega
    simp only [Log.getEntry?, hsome, Option.map_some', hid, hi]

/-- C9 witness: the theorem applied to the concrete two-entry log. -/
theorem append_assigns_sequential_ids_witness :
    (demoLog2.append demoEntryA).2 = demoLog2.getLastLogId + 1 ∧
    (∀ k, (demoLog2.append { demoEntryA with entryId := k }).2
      = demoLog2.getLastLogId + 1) ∧
    ((demoLog2.append demoEntryA).1.getEntry? (demoLog2.getLastLogId + 1)).map Entry.entryId
      = some (demoLog2.getLastLogId + 1) ∧
    (∀ i, 1 ≤ i → i ≤ demoLog2.getLastLogId →
      (demoLog2.getEntry? i).map Entry.entryId = some i) :=
  append_assigns_sequential_ids demoLog2
    (Log.Reachable.append _ demoEntryB (Log.Reachable.append _ demoEntryA Log.Reachable.empty))
    demoEntryA

/-- C4: after `truncate(last_kept_id)` no entry with id greater than
`last_kept_id` remains (both positionally — the new `last_id()` is
`min last_kept_id last_id()` — and for the stored entryIds); every entry
with id at most `min last_kept_id last_id()` is unchanged, all fields
included; and if `last_kept_id ≥ last_id()` the log is unchanged. -/
theorem truncate_spec (l : Log) (k : Nat) (hl : l.Reachable) :
    (l.truncate k).getLastLogId = min k l.getLastLogId ∧
    (∀ e ∈ (l.truncate k).entries, e.entryId ≤ k) ∧
    (∀ i, 1 ≤ i → i ≤ min k l.getLastLogId → (l.truncate k).getEntry? i = l.getEntry? i) ∧
    (l.getLastLogId ≤ k → l.truncate k = l) := by
  refine ⟨?_, ?_, ?_, ?_⟩
  · simp [Log.truncate, Log.getLastLogId]
  · intro e he
    have hw := (Log.Reachable.truncate l k hl).wellFormed
    rcases List.mem_iff_getElem.mp he with ⟨i, hlt, hget⟩
    have hsome : (l.truncate k).entries[i]? = some e := by
      rw [List.getElem?_eq_getElem hlt, hget]
    have hid := hw i e hsome
    have hlen : (l.truncate k).entries.length ≤ k := by
      simp only [Log.truncate]
      exact List.length_take_le k l.entries
    omega
  · intro i h1 h2
    have hik : i ≤ k := le_trans h2 (min_le_left _ _)
    simp only [Log.truncate, Log.getEntry?]
    exact List.getElem?_take_of_lt (by omega)
  · intro h
    simp only [Log.truncate, Log.getLastLogId] at *
    rw [List.take_of_length_le h]

/-- C4 witness: the theorem applied to the concrete two-entry log with
`last_kept_id = 1`. -/
theorem truncate_spec_witness :
    (demoLog2.truncate 1).getLastLogId = min 1 demoLog2.getLastLogId ∧
    (∀ e ∈ (demoLog2.truncate 1).entries, e.entryId ≤ 1) ∧
    (∀ i, 1 ≤ i → i ≤ min 1 demoLog2.getLastLogId →
      (demoLog2.truncate 1).getEntry? i = demoLog2.getEntry? i) ∧
    (demoLog2.getLastLogId ≤ 1 → demoLog2.truncate 1 = demoLog2) :=
  truncate_spec demoLog2 1
    (Log.Reachable.append _ demoEntryB (Log.Reachable.append _ demoEntryA Log.Reachable.empty))

/-! ### Configuration (`src/Server/RaftConsensus.h` lines 340-540) -/

/-- `Configuration::State` (`RaftConsensus.h` lines 372-394). -/
inductive ConfigState where
  | blank
  | stable
  | staging
  | transitional
deriving DecidableEq

/-- The membership view (`RaftConsensus.h` lines 345-540): the state, the
log id of the current configuration, and the two `SimpleConfiguration`
server lists `oldServers` and `newServers` (lines 524-537). -/
structure Configuration where
  state : ConfigState
  id : Nat
  oldServers : List ServerRef
  newServers : List ServerRef
deriving DecidableEq

/-- Size of a simple majority of `n` servers (spec glossary: quorum =
majority of a list). -/
def majority (n : Nat) : Nat := n / 2 + 1

/-- How many servers of the list have value at least `v` under `f`. -/
def countGe (servers : List ServerRef) (f : ServerRef → Nat) (v : Nat) : Nat :=
  servers.countP (fun s => decide (v ≤ f s))

/-- Spec-side reading of "a quorum of servers each have value ≥ v": some
majority-sized sub-list whose members all have value at least `v`. -/
def ExistsQuorumGe (servers : List ServerRef) (f : ServerRef → Nat) (v : Nat) : Prop :=
  ∃ q : List ServerRef, q.Sublist servers ∧ majority servers.length ≤ q.length ∧
    ∀ s ∈ q, v ≤ f s

/-- Spec-side reading of "there exists a quorum in which every server
satisfies the predicate". -/
def ExistsQuorumPred (servers : List ServerRef) (p : ServerRef → Bool) : Prop :=
  ∃ q : List ServerRef, q.Sublist servers ∧ majority servers.length ≤ q.length ∧
    ∀ s ∈ q, p s = true

/-- Modelled from the spec: `RaftConsensus.cc` is missing.
`SimpleConfiguration::all` (`RaftConsensus.h` line 359): every server of
the list satisfies the predicate. -/
def SimpleConfiguration.all (servers : List ServerRef) (p : ServerRef → Bool) : Bool :=
  servers.all p

/-- Modelled from the spec: `RaftConsensus.cc` is missing.
`SimpleConfiguration::min` (`RaftConsensus.h` line 362): the minimum value
on any server of the list, or 0 if the list is empty (doc of
`Configuration::stagingMin`, lines 469-475). -/
def SimpleConfiguration.minValue (servers : List ServerRef) (f : ServerRef → Nat) : Nat :=
  match servers with
  | [] => 0
  | s :: rest => (rest.map f).foldl min (f s)

/-- Modelled from the spec: `RaftConsensus.cc` is missing.
`SimpleConfiguration::quorumMin` (`RaftConsensus.h` line 364), spec §4.2:
the largest `v` such that a majority of the list have value at least `v`
(0 for the empty list).  Computed as the largest listed value reaching a
majority. -/
def SimpleConfiguration.quorumMin (servers : List ServerRef) (f : ServerRef → Nat) : Nat :=
  ((servers.map f).filter
    (fun v => decide (majority servers.length ≤ countGe servers f v))).foldr Nat.max 0

/-- Modelled from the spec: `RaftConsensus.cc` is missing.
`Configuration::setConfiguration` (`RaftConsensus.h` lines 440-451): the
configuration is replaced by the one encoded in the description, whose log
entry id is `newId`; any existing staging servers are dropped; "if any
newServers are listed in the description, it is considered TRANSITIONAL;
otherwise, it is STABLE". -/
def Configuration.setConfiguration (_cfg : Configuration) (newId : Nat)
    (desc : ConfigurationDescription) : Configuration :=
  { state := if desc.newServers.isEmpty then .stable else .transitional
    id := newId
    oldServers := desc.oldServers
    newServers := desc.newServers }

/-- Modelled from the spec: `RaftConsensus.cc` is missing.
`Configuration::stagingAll` (`RaftConsensus.h` lines 463-467): true iff
every server in the staging set satisfies the predicate (the staging set
is `newServers` while STAGING, and empty otherwise). -/
def Configuration.stagingAll (cfg : Configuration) (p : ServerRef → Bool) : Bool :=
  if cfg.state = .staging then SimpleConfiguration.all cfg.newServers p else true

/-- Modelled from the spec: `RaftConsensus.cc` is missing.
`Configuration::stagingMin` (`RaftConsensus.h` lines 469-475): the minimum
value on any server in the staging set, or 0 if the staging set is
empty. -/
def Configuration.stagingMin (cfg : Configuration) (f : ServerRef → Nat) : Nat :=
  if cfg.state = .staging then SimpleConfiguration.minValue cfg.newServers f else 0

/-- Modelled from the spec: `RaftConsensus.cc` is missing.
`Configuration::quorumMin` (`RaftConsensus.h` lines 425-432), spec §4.2:
0 when BLANK; under STABLE and STAGING a quorum is a majority of
`oldServers` (lines 524-530); under TRANSITIONAL a quorum needs a majority
of `oldServers` and a majority of `newServers`, so the result is the
smaller of the two quorum minima. -/
def Configuration.quorumMin (cfg : Configuration) (f : ServerRef → Nat) : Nat :=
  match cfg.state with
  | .blank => 0
  | .transitional =>
      min (SimpleConfiguration.quorumMin cfg.oldServers f)
        (SimpleConfiguration.quorumMin cfg.newServers f)
  | _ => SimpleConfiguration.quorumMin cfg.oldServers f

/-- A description that lists only new servers (its old list is empty). -/
def descOnlyNew : ConfigurationDescription := ⟨[], [(2, "b")]⟩

/-- A staging configuration used as the prior state in the C5 tests. -/
def cfgBefore : Configuration := ⟨.staging, 3, [(1, "a")], [(9, "s")]⟩

/-- C5 counterexample: on a description that has only new servers (empty
old list, one new server) `setConfiguration` produces the TRANSITIONAL
state, not STABLE as the claim predicts. -/
theorem setConfiguration_only_new_servers_transitional :
    descOnlyNew.oldServers = [] ∧ descOnlyNew.newServers ≠ [] ∧
    (cfgBefore.setConfiguration 7 descOnlyNew).state = .transitional ∧
    ¬ (cfgBefore.setConfiguration 7 descOnlyNew).state = .stable := by
  refine ⟨rfl, by decide, rfl, by decide⟩

/-- C5 (amended): `setConfiguration(id, descriptor)` installs exactly the
descriptor's two lists under log id `id`, drops any staging servers — the
result is independent of the prior configuration, staging included, and is
never STAGING — and the state is STABLE iff the descriptor lists no new
servers, else TRANSITIONAL. -/
theorem setConfiguration_spec (cfg cfgOther : Configuration) (newId : Nat)
    (desc : ConfigurationDescription) :
    (cfg.setConfiguration newId desc).id = newId ∧
    (cfg.setConfiguration newId desc).oldServers = desc.oldServers ∧
    (cfg.setConfiguration newId desc).newServers = desc.newServers ∧
    ((cfg.setConfiguration newId desc).state = .stable ↔ desc.newServers = []) ∧
    ((cfg.setConfiguration newId desc).state = .stable ∨
      (cfg.setConfiguration newId desc).state = .transitional) ∧
    cfg.setConfiguration newId desc = cfgOther.setConfiguration newId desc := by
  refine ⟨rfl, rfl, rfl, ?_, ?_, rfl⟩
  · simp only [Configuration.setConfiguration]
    rcases h : desc.newServers with _ | ⟨s, rest⟩ <;> simp
  · simp only [Configuration.setConfiguration]
    rcases desc.newServers with _ | ⟨s, rest⟩ <;> simp

theorem foldl_min_le_init (xs : List Nat) (a : Nat) : xs.foldl min a ≤ a := by
  induction xs generalizing a with
  | nil => exact Nat.le_refl a
  | cons x xs ih => exact le_trans (ih (min a x)) (min_le_left a x)

theorem foldl_min_le_mem (xs : List Nat) (a : Nat) :
    ∀ x ∈ xs, xs.foldl min a ≤ x := by
  induction xs generalizing a with
  | nil => intro x hx; simp at hx
  | cons y ys ih =>
      intro x hx
      rcases List.mem_cons.mp hx with h | h
      · subst h
        exact le_trans (foldl_min_le_init ys (min a x)) (min_le_right a x)
      · exact ih (min a y) x h

theorem foldl_min_mem (xs : List Nat) (a : Nat) :
    xs.foldl min a = a ∨ xs.foldl min a ∈ xs := by
  induction xs generalizing a with
  | nil => exact Or.inl rfl
  | cons y ys ih =>
      rcases ih (min a y) with h | h
      · rcases Nat.le_total a y with hle | hle
        · left
          simp only [List.foldl_cons, h]
          exact min_eq_left hle
        · right
          rw [List.foldl_cons, h, show min a y = y by
            rw [min_def]
            split <;> omega]
          exact List.mem_cons_self y ys
      · exact Or.inr (List.mem_cons_of_mem y h)

theorem minValue_le {servers : List ServerRef} {f : ServerRef → Nat} :
    ∀ s ∈ servers, SimpleConfiguration.minValue servers f ≤ f s := by
  intro s hs
  match servers, hs with
  | t :: rest, hs =>
      rcases List.mem_cons.mp hs with h | h
      · subst h
        exact foldl_min_le_init (rest.map f) (f s)
      · exact foldl_min_le_mem (rest.map f) (f t) (f s) (List.mem_map_of_mem f h)

theorem minValue_attained {servers : List ServerRef} {f : ServerRef → Nat}
    (h : servers ≠ []) : ∃ s ∈ servers, SimpleConfiguration.minValue servers f = f s := by
  match servers, h with
  | t :: rest, _ =>
      rcases foldl_min_mem (rest.map f) (f t) with hm | hm
      · exact ⟨t, List.mem_cons_self .., hm⟩
      · rcases List.mem_map.mp hm with ⟨s, hs, heq⟩
        exact ⟨s, List.mem_cons_of_mem t hs, heq.symm⟩

/-- A STAGING configuration with staging set of three servers. -/
def cfgStaging : Configuration := ⟨.staging, 1, [(9, "me")], [(1, "a"), (2, "b"), (3, "c")]⟩

/-- Demo value function on the staging servers: ids 1, 2, 3 map to
values 5, 3, 1. -/
def fDemo : ServerRef → Nat := fun s => 7 - 2 * s.1

/-- Demo predicate on the staging servers: holds on ids 1 and 2 only. -/
def pDemo : ServerRef → Bool := fun s => decide (s.1 ≤ 2)

/-- C6 counterexample: on the three-server staging set with values
5, 3, 1 a quorum (two of three) reaches value 3, yet `stagingMin` returns
the overall minimum 1; and on a predicate satisfied by a quorum but not by
all three, `stagingAll` returns false.  The staging operations are the
plain `all`/`min` over the staging list, not the quorum versions the claim
describes. -/
theorem staging_quorum_claim_false :
    Configuration.stagingMin cfgStaging fDemo = 1 ∧
    ExistsQuorumGe cfgStaging.newServers fDemo 3 ∧
    Configuration.stagingAll cfgStaging pDemo = false ∧
    ExistsQuorumPred cfgStaging.newServers pDemo := by
  refine ⟨by decide, ⟨[(1, "a"), (2, "b")], ?_, by decide, by decide⟩,
    by decide, ⟨[(1, "a"), (2, "b")], ?_, by decide, by decide⟩⟩
  · exact (List.nil_sublist _).cons _ |>.cons₂ _ |>.cons₂ _
  · exact (List.nil_sublist _).cons _ |>.cons₂ _ |>.cons₂ _

/-- C6 (amended): in the STAGING state, `stagingAll(pred)` is true iff
every server of the staging set `T` satisfies `pred`, and
`stagingMin(value_fn)` returns the minimum of `value_fn` over `T`
(0 when `T` is empty): a value attained by some staging server and a lower
bound for all of them. -/
theorem stagingAll_stagingMin_spec (cfg : Configuration) (p : ServerRef → Bool)
    (f : ServerRef → Nat) (h : cfg.state = .staging) :
    (cfg.stagingAll p = true ↔ ∀ s ∈ cfg.newServers, p s = true) ∧
    (cfg.newServers = [] → cfg.stagingMin f = 0) ∧
    (cfg.newServers ≠ [] →
      (∃ s ∈ cfg.newServers, cfg.stagingMin f = f s) ∧
      ∀ s ∈ cfg.newServers, cfg.stagingMin f ≤ f s) := by
  refine ⟨?_, ?_, ?_⟩
  · simp [Configuration.stagingAll, h, SimpleConfiguration.all, List.all_eq_true]
  · intro hempty
    simp [Configuration.stagingMin, h, hempty, SimpleConfiguration.minValue]
  · intro hne
    constructor
    · simp only [Configuration.stagingMin, h, if_pos rfl]
      exact minValue_attained hne
    · intro s hs
      simp only [Configuration.stagingMin, h, if_pos rfl]
      exact minValue_le s hs

/-- C6 witness: the amended theorem applied to the concrete staging
configuration. -/
theorem stagingAll_stagingMin_spec_witness :
    (cfgStaging.stagingAll pDemo = true ↔ ∀ s ∈ cfgStaging.newServers, pDemo s = true) ∧
    (cfgStaging.newServers = [] → cfgStaging.stagingMin fDemo = 0) ∧
    (cfgStaging.newServers ≠ [] →
      (∃ s ∈ cfgStaging.newServers, cfgStaging.stagingMin fDemo = fDemo s) ∧
      ∀ s ∈ cfgStaging.newServers, cfgStaging.stagingMin fDemo ≤ fDemo s) :=
  stagingAll_stagingMin_spec cfgStaging pDemo fDemo rfl

theorem foldr_max_le_mem (xs : List Nat) : ∀ x ∈ xs, x ≤ xs.foldr max 0 := by
  induction xs with
  | nil => intro x hx; simp at hx
  | cons y ys ih =>
      intro x hx
      rcases List.mem_cons.mp hx with h | h
      · subst h
        exact le_max_left _ _
      · exact le_trans (ih x h) (le_max_right _ _)

theorem foldr_max_mem (xs : List Nat) : xs.foldr max 0 = 0 ∨ xs.foldr max 0 ∈ xs := by
  induction xs with
  | nil => exact Or.inl rfl
  | cons y ys ih =>
      rcases Nat.le_total y (ys.foldr max 0) with hle | hle
      · rcases ih with h | h
        · left
          rw [List.foldr_cons, max_eq_right hle, h]
        · right
          rw [List.foldr_cons, max_eq_right hle]
          exact List.mem_cons_of_mem y h
      · right
        rw [List.foldr_cons, max_eq_left hle]
        exact List.mem_cons_self y ys

theorem exists_min_mem (xs : List Nat) (h : xs ≠ []) :
    ∃ w ∈ xs, ∀ x ∈ xs, w ≤ x := by
  induction xs with
  | nil => cases h rfl
  | cons y ys ih =>
      rcases eq_or_ne ys [] with hys | hys
      · subst hys
        exact ⟨y, List.mem_cons_self y [], by intro x hx; simp at hx; omega⟩
      · obtain ⟨w, hw, hmin⟩ := ih hys
        rcases Nat.le_total y w with hle | hle
        · refine ⟨y, List.mem_cons_self y ys, ?_⟩
          intro x hx
          rcases List.mem_cons.mp hx with h | h
          · omega
          · exact le_trans hle (hmin x h)
        · refine ⟨w, List.mem_cons_of_mem y hw, ?_⟩
          intro x hx
          rcases List.mem_cons.mp hx with h | h
          · omega
          · exact hmin x h

theorem countGe_antitone {servers : List ServerRef} {f : ServerRef → Nat} {v w : Nat}
    (h : v ≤ w) : countGe servers f w ≤ countGe servers f v :=
  List.countP_mono_left (fun s _ hs => by
    simp only [decide_eq_true_eq] at hs ⊢
    omega)

/-- The spec's notion "there exists a quorum of the list in which every
server has value at least `v`" coincides with "at least a majority of the
list's members have value at least `v`". -/
theorem existsQuorumGe_iff (servers : List ServerRef) (f : ServerRef → Nat) (v : Nat) :
    ExistsQuorumGe servers f v ↔ majority servers.length ≤ countGe servers f v := by
  constructor
  · rintro ⟨q, hsub, hlen, hall⟩
    have hq : q.countP (fun s => decide (v ≤ f s)) = q.length :=
      List.countP_eq_length.mpr (fun s hs => decide_eq_true (hall s hs))
    calc majority servers.length ≤ q.length := hlen
      _ = q.countP (fun s => decide (v ≤ f s)) := hq.symm
      _ ≤ countGe servers f v := hsub.countP_le _
  · intro h
    refine ⟨servers.filter (fun s => decide (v ≤ f s)), List.filter_sublist _, ?_, ?_⟩
    · rw [← List.countP_eq_length_filter]
      exact h
    · intro s hs
      have := List.of_mem_filter hs
      simpa using this

theorem majority_le_length {n : Nat} (h : 1 ≤ n) : majority n ≤ n := by
  simp only [majority]
  omega

theorem one_le_majority (n : Nat) : 1 ≤ majority n := by
  simp only [majority]
  omega

theorem quorumMin_achieved (servers : List ServerRef) (f : ServerRef → Nat)
    (h : servers ≠ []) :
    majority servers.length ≤ countGe servers f (SimpleConfiguration.quorumMin servers f) := by
  rcases foldr_max_mem ((servers.map f).filter
      (fun v => decide (majority servers.length ≤ countGe servers f v))) with h0 | hmem
  · rw [SimpleConfiguration.quorumMin, h0]
    have hall : countGe servers f 0 = servers.length :=
      List.countP_eq_length.mpr (fun s _ => by simp)
    rw [hall]
    exact majority_le_length (List.length_pos.mpr h)
  · have := List.of_mem_filter hmem
    simpa [SimpleConfiguration.quorumMin] using this

theorem le_quorumMin (servers : List ServerRef) (f : ServerRef → Nat) (v : Nat)
    (hv : majority servers.length ≤ countGe servers f v) :
    v ≤ SimpleConfiguration.quorumMin servers f := by
  have hpos : 0 < countGe servers f v := lt_of_lt_of_le (one_le_majority _) hv
  obtain ⟨s0, hs0, hps0⟩ := List.countP_pos_iff.mp hpos
  have hvs0 : v ≤ f s0 := by simpa using hps0
  have hcand : f s0 ∈ (servers.map f).filter (fun x => decide (v ≤ x)) :=
    List.mem_filter.mpr ⟨List.mem_map_of_mem f hs0, decide_eq_true hvs0⟩
  obtain ⟨w, hw, hwmin⟩ := exists_min_mem _ (List.ne_nil_of_mem hcand)
  have hwfilter := List.mem_filter.mp hw
  have hvw : v ≤ w := by simpa using hwfilter.2
  have hcount : countGe servers f v ≤ countGe servers f w := by
    apply List.countP_mono_left
    intro s hs hps
    have hvfs : v ≤ f s := by simpa using hps
    have hfs : f s ∈ (servers.map f).filter (fun x => decide (v ≤ x)) :=
      List.mem_filter.mpr ⟨List.mem_map_of_mem f hs, decide_eq_true hvfs⟩
    exact decide_eq_true (hwmin (f s) hfs)
  have hwq : majority servers.length ≤ countGe servers f w := le_trans hv hcount
  have hwin : w ∈ (servers.map f).filter
      (fun x => decide (majority servers.length ≤ countGe servers f x)) :=
    List.mem_filter.mpr ⟨hwfilter.1, decide_eq_true hwq⟩
  exact le_trans hvw (foldr_max_le_mem _ w hwin)

/-- C7: `quorumMin(value_fn)` returns 0 when the configuration is BLANK;
under STABLE or STAGING it returns the largest `v` such that a quorum (a
majority of the old list) all have value at least `v`; and under
TRANSITIONAL the returned `v` is achieved simultaneously by a majority of
the old list and a majority of the new list, and is the largest such
value. -/
theorem quorumMin_spec (cfg : Configuration) (f : ServerRef → Nat)
    (hold : cfg.state ≠ .blank → cfg.oldServers ≠ [])
    (hnew : cfg.state = .transitional → cfg.newServers ≠ []) :
    (cfg.state = .blank → cfg.quorumMin f = 0) ∧
    ((cfg.state = .stable ∨ cfg.state = .staging) →
      ExistsQuorumGe cfg.oldServers f (cfg.quorumMin f) ∧
      (∀ v, ExistsQuorumGe cfg.oldServers f v → v ≤ cfg.quorumMin f)) ∧
    (cfg.state = .transitional →
      (ExistsQuorumGe cfg.oldServers f (cfg.quorumMin f) ∧
       ExistsQuorumGe cfg.newServers f (cfg.quorumMin f)) ∧
      (∀ v, ExistsQuorumGe cfg.oldServers f v → ExistsQuorumGe cfg.newServers f v →
        v ≤ cfg.quorumMin f)) := by
  refine ⟨?_, ?_, ?_⟩
  · intro h
    simp [Configuration.quorumMin, h]
  · intro h
    have hne : cfg.oldServers ≠ [] := hold (by rcases h with h | h <;> simp [h])
    have hq : cfg.quorumMin f = SimpleConfiguration.quorumMin cfg.oldServers f := by
      rcases h with h | h <;> simp [Configuration.quorumMin, h]
    rw [hq]
    constructor
    · exact (existsQuorumGe_iff _ _ _).mpr (quorumMin_achieved _ _ hne)
    · intro v hv
      exact le_quorumMin _ _ _ ((existsQuorumGe_iff _ _ _).mp hv)
  · intro h
    have hneo : cfg.oldServers ≠ [] := hold (by simp [h])
    have hnen : cfg.newServers ≠ [] := hnew h
    have hq : cfg.quorumMin f
        = min (SimpleConfiguration.quorumMin cfg.oldServers f)
            (SimpleConfiguration.quorumMin cfg.newServers f) := by
      simp [Configuration.quorumMin, h]
    rw [hq]
    refine ⟨⟨?_, ?_⟩, ?_⟩
    · refine (existsQuorumGe_iff _ _ _).mpr ?_
      exact le_trans (quorumMin_achieved _ f hneo)
        (countGe_antitone (min_le_left _ _)) |>.trans_eq rfl |>.trans (Nat.le_refl _)
    · refine (existsQuorumGe_iff _ _ _).mpr ?_
      exact le_trans (quorumMin_achieved _ f hnen)
        (countGe_antitone (min_le_right _ _))
    · intro v hvo hvn
      exact le_min (le_quorumMin _ _ _ ((existsQuorumGe_iff _ _ _).mp hvo))
        (le_quorumMin _ _ _ ((existsQuorumGe_iff _ _ _).mp hvn))

/-- A TRANSITIONAL configuration over old list {1,2,3} and new list
{3,4,5}. -/
def cfgTrans : Configuration :=
  ⟨.transitional, 2, [(1, "a"), (2, "b"), (3, "c")], [(3, "c"), (4, "d"), (5, "e")]⟩

/-- C7 witness: the theorem applied to the concrete transitional
configuration. -/
theorem quorumMin_spec_witness :
    (cfgTrans.state = .blank → cfgTrans.quorumMin fDemo = 0) ∧
    ((cfgTrans.state = .stable ∨ cfgTrans.state = .staging) →
      ExistsQuorumGe cfgTrans.oldServers fDemo (cfgTrans.quorumMin fDemo) ∧
      (∀ v, ExistsQuorumGe cfgTrans.oldServers fDemo v → v ≤ cfgTrans.quorumMin fDemo)) ∧
    (cfgTrans.state = .transitional →
      (ExistsQuorumGe cfgTrans.oldServers fDemo (cfgTrans.quorumMin fDemo) ∧
       ExistsQuorumGe cfgTrans.newServers fDemo (cfgTrans.quorumMin fDemo)) ∧
      (∀ v, ExistsQuorumGe cfgTrans.oldServers fDemo v →
        ExistsQuorumGe cfgTrans.newServers fDemo v → v ≤ cfgTrans.quorumMin fDemo)) :=
  quorumMin_spec cfgTrans fDemo (fun _ => by decide) (fun _ => by decide)

/-! ### Consensus core (`src/Server/RaftConsensus.h` lines 542-1036) -/

/-- `RaftConsensus::State` (`RaftConsensus.h` lines 650-675). -/
inductive ServerState where
  | follower
  | candidate
  | leader
deriving DecidableEq

/-- `RequestVote.Request` (spec §6). -/
structure RequestVoteRequest where
  term : Nat
  candidateId : Nat
  lastLogId : Nat
  lastLogTerm : Nat
deriving DecidableEq

/-- `RequestVote.Response` (spec §6). -/
structure RequestVoteResponse where
  term : Nat
  granted : Bool
  lastLogId : Nat
deriving DecidableEq

/-- `AppendEntry.Request` (spec §6). -/
structure AppendEntryRequest where
  term : Nat
  leaderId : Nat
  prevLogId : Nat
  prevLogTerm : Nat
  entries : List Entry
  leaderCommit : Nat
deriving DecidableEq

/-- `AppendEntry.Response` (spec §6). -/
structure AppendEntryResponse where
  term : Nat
  success : Bool
  lastLogId : Nat
deriving DecidableEq

/-- The per-server consensus state (`RaftConsensus.h` lines 931-1017):
role, current term, vote, log, commit index, leader hint and
configuration, together with the durably persisted copy of the metadata
`{current_term, voted_for}` (spec §3).  Timers, epochs and peer records
are not modelled: the claims under verification do not mention them. -/
structure RaftState where
  state : ServerState
  currentTerm : Nat
  votedFor : Nat
  serverId : Nat
  log : Log
  committedId : Nat
  leaderId : Nat
  configuration : Configuration
  persistedTerm : Nat
  persistedVotedFor : Nat
deriving DecidableEq

/-- Modelled from the spec: `RaftConsensus.cc` is missing.
`RaftConsensus::updateLogMetadata` (`RaftConsensus.h` lines 839-843):
persist the term and the vote to stable storage. -/
def updateLogMetadata (s : RaftState) : RaftState :=
  { s with persistedTerm := s.currentTerm, persistedVotedFor := s.votedFor }

/-- Modelled from the spec: `RaftConsensus.cc` is missing.
`RaftConsensus::stepDown` (`RaftConsensus.h` lines 831-837, spec §4.4
Stepdown): on a newer term adopt it, clear the vote and persist; become
follower and clear the leader hint. -/
def stepDown (s : RaftState) (newTerm : Nat) : RaftState :=
  let s1 := if s.currentTerm < newTerm
    then updateLogMetadata { s with currentTerm := newTerm, votedFor := 0 }
    else s
  { s1 with state := .follower, leaderId := 0 }

/-- Modelled from the spec: `RaftConsensus.cc` is missing.
`RaftConsensus::abortElection` (`RaftConsensus.h` lines 709-717): called
when a candidate discovers a server with a newer term; the server adopts
the newer term (clearing its vote and persisting) but "stays as a
CANDIDATE" and issues no new RPCs until the next election timeout. -/
def abortElection (s : RaftState) (newTerm : Nat) : RaftState :=
  updateLogMetadata { s with currentTerm := newTerm, votedFor := 0 }

/-- Modelled from the spec: `RaftConsensus.cc` is missing.
`RaftConsensus::startNewElection` (`RaftConsensus.h` lines 822-829, spec
§4.4 Election): if the configuration is blank do nothing; otherwise
increment the term, vote for self, persist, and become candidate with no
known leader. -/
def startNewElection (s : RaftState) : RaftState :=
  if s.configuration.state = .blank then s
  else updateLogMetadata { s with
    state := .candidate
    currentTerm := s.currentTerm + 1
    votedFor := s.serverId
    leaderId := 0 }

/-- Modelled from the spec: `RaftConsensus.cc` is missing.
`RaftConsensus::becomeLeader` (`RaftConsensus.h` lines 758-762, spec §4.4
Becoming leader): a candidate with a quorum of votes becomes leader and
points the leader hint at itself.  Per-peer bookkeeping is not
modelled. -/
def becomeLeader (s : RaftState) : RaftState :=
  { s with state := .leader, leaderId := s.serverId }

/-- The candidate's log is at least as up-to-date as the local log (spec
§4.4 Vote granting): a strictly larger last term, or equal last terms and
at least as large a last id. -/
def logUpToDate (s : RaftState) (req : RequestVoteRequest) : Bool :=
  decide (s.log.getTerm s.log.getLastLogId < req.lastLogTerm) ||
    (decide (req.lastLogTerm = s.log.getTerm s.log.getLastLogId) &&
     decide (s.log.getLastLogId ≤ req.lastLogId))

/-- Modelled from the spec: `RaftConsensus.cc` is missing.
`RaftConsensus::handleRequestVote` (`RaftConsensus.h` lines 608-616, spec
§4.4 Vote granting): reject smaller terms; step down on larger terms;
grant iff no vote was given this term (voted_for = 0) or it already went
to this candidate, and the candidate's log is at least as up-to-date;
granting records the vote and persists it before responding. -/
def handleRequestVote (s : RaftState) (req : RequestVoteRequest) :
    RaftState × RequestVoteResponse :=
  if req.term < s.currentTerm then
    (s, ⟨s.currentTerm, false, s.log.getLastLogId⟩)
  else
    let s1 := if s.currentTerm < req.term then stepDown s req.term else s
    if (s1.votedFor = 0 ∨ s1.votedFor = req.candidateId) ∧ logUpToDate s1 req then
      let s2 := updateLogMetadata { s1 with votedFor := req.candidateId }
      (s2, ⟨s2.currentTerm, true, s2.log.getLastLogId⟩)
    else
      (s1, ⟨s1.currentTerm, false, s1.log.getLastLogId⟩)

/-- Modelled from the spec: `RaftConsensus.cc` is missing.  The accept
loop of AppendEntry handling (spec §4.4): for each incoming entry at id
`i`, if the local term at `i` differs from the entry's term, truncate to
`i - 1` and append the entry (configuration entries are installed
immediately, spec §4.4 membership step 4); entries whose term already
matches are kept as they are. -/
def applyEntries (s : RaftState) (i : Nat) : List Entry → RaftState
  | [] => s
  | e :: rest =>
      let s1 :=
        if s.log.getTerm i = e.term then s
        else
          let pair := (s.log.truncate (i - 1)).append e
          let s' := { s with log := pair.1 }
          if e.type = .configuration then
            { s' with configuration := s'.configuration.setConfiguration pair.2 e.configuration }
          else s'
      applyEntries s1 (i + 1) rest

/-- Modelled from the spec: `RaftConsensus.cc` is missing.
`RaftConsensus::handleAppendEntry` (`RaftConsensus.h` lines 599-606, spec
§4.4 AppendEntry handling): reject smaller terms; step down on larger
terms or when candidate in the same term; record the leader hint; reject
on a failed `prev_log` consistency check (hinting the local last id);
otherwise apply the entries and advance `committed_id` to
`max(committed_id, min(leader_commit, last_id()))`. -/
def handleAppendEntry (s : RaftState) (req : AppendEntryRequest) :
    RaftState × AppendEntryResponse :=
  if req.term < s.currentTerm then
    (s, ⟨s.currentTerm, false, s.log.getLastLogId⟩)
  else
    let s1 := if s.currentTerm < req.term ∨ s.state = .candidate
      then stepDown s req.term else s
    let s1 := { s1 with leaderId := req.leaderId }
    if req.prevLogId ≠ 0 ∧ s1.log.getTerm req.prevLogId ≠ req.prevLogTerm then
      (s1, ⟨s1.currentTerm, false, s1.log.getLastLogId⟩)
    else
      let s2 := applyEntries s1 (req.prevLogId + 1) req.entries
      let s3 := { s2 with
        committedId := max s2.committedId (min req.leaderCommit s2.log.getLastLogId) }
      (s3, ⟨s3.currentTerm, true, s3.log.getLastLogId⟩)

/-- Modelled from the spec: `RaftConsensus.cc` is missing.  Processing of
a `RequestVote` response (spec §4.3 RPC envelope): a candidate that sees a
response with a newer term aborts its election (`abortElection`,
`RaftConsensus.h` 709-717); in other states a newer term forces a step
down.  Vote tallying over the peer records is not modelled; quorum
achievement is represented by the separate `becomeLeader` transition. -/
def handleVoteResponse (s : RaftState) (resp : RequestVoteResponse) : RaftState :=
  if s.currentTerm < resp.term then
    if s.state = .candidate then abortElection s resp.term else stepDown s resp.term
  else s

/-- Modelled from the spec: `RaftConsensus.cc` is missing.
`RaftConsensus::advanceCommittedId` (`RaftConsensus.h` lines 719-732, spec
§4.4 Commit advancement): with `n` standing for
`quorum_min(last_agree_id)` (the peer records themselves are not
modelled), a leader advances `committed_id` to `n` only if `n` is larger
and the entry at `n` is from the current term. -/
def advanceCommittedId (s : RaftState) (n : Nat) : RaftState :=
  if s.state = .leader ∧ s.committedId < n ∧ s.log.getTerm n = s.currentTerm then
    { s with committedId := n }
  else s

/-- Modelled from the spec: `RaftConsensus.cc` is missing.
`RaftConsensus::append` (`RaftConsensus.h` lines 734-744): append an entry
to the log with the current term and install the configuration if this is
a configuration entry. -/
def raftAppend (s : RaftState) (e : Entry) : RaftState × Nat :=
  let pair := s.log.append { e with term := s.currentTerm }
  let s1 := { s with log := pair.1 }
  if e.type = .configuration then
    ({ s1 with configuration := s1.configuration.setConfiguration pair.2 e.configuration },
      pair.2)
  else (s1, pair.2)

/-- One protocol step of a single server, as the spec describes the
operations (elections, step-downs, vote and append handling, commit
advancement, leader appends): the interleavings quantified over in the
monotonicity claim. -/
inductive Step : RaftState → RaftState → Prop where
  | startElection (s : RaftState) :
      s.configuration.state ≠ .blank → (s.state = .follower ∨ s.state = .candidate) →
      Step s (startNewElection s)
  | stepDownHigher (s : RaftState) (t : Nat) :
      s.currentTerm ≤ t → Step s (stepDown s t)
  | abortElectionHigher (s : RaftState) (t : Nat) :
      s.state = .candidate → s.currentTerm < t → Step s (abortElection s t)
  | quorumVotes (s : RaftState) :
      s.state = .candidate → Step s (becomeLeader s)
  | appendEntryFrom (s : RaftState) (req : AppendEntryRequest) :
      Step s (handleAppendEntry s req).1
  | requestVoteFrom (s : RaftState) (req : RequestVoteRequest) :
      Step s (handleRequestVote s req).1
  | voteResponseFrom (s : RaftState) (resp : RequestVoteResponse) :
      Step s (handleVoteResponse s resp)
  | advanceCommit (s : RaftState) (n : Nat) :
      Step s (advanceCommittedId s n)
  | clientAppend (s : RaftState) (e : Entry) :
      s.state = .leader → Step s (raftAppend s e).1

theorem applyEntries_currentTerm (es : List Entry) (i : Nat) (s : RaftState) :
    (applyEntries s i es).currentTerm = s.currentTerm := by
  induction es generalizing s i with
  | nil => rfl
  | cons e rest ih =>
      simp only [applyEntries]
      split
      · exact ih _ _
      · split
        · exact ih _ _
        · exact ih _ _

theorem applyEntries_committedId (es : List Entry) (i : Nat) (s : RaftState) :
    (applyEntries s i es).committedId = s.committedId := by
  induction es generalizing s i with
  | nil => rfl
  | cons e rest ih =>
      simp only [applyEntries]
      split
      · exact ih _ _
      · split
        · exact ih _ _
        · exact ih _ _

theorem applyEntries_state (es : List Entry) (i : Nat) (s : RaftState) :
    (applyEntries s i es).state = s.state := by
  induction es generalizing s i with
  | nil => rfl
  | cons e rest ih =>
      simp only [applyEntries]
      split
      · exact ih _ _
      · split
        · exact ih _ _
        · exact ih _ _

theorem stepDown_state (s : RaftState) (t : Nat) : (stepDown s t).state = .follower := by
  simp only [stepDown]

theorem stepDown_term_le (s : RaftState) (t : Nat) :
    s.currentTerm ≤ (stepDown s t).currentTerm := by
  by_cases h : s.currentTerm < t <;> simp [stepDown, updateLogMetadata, h] <;> omega

theorem stepDown_committedId (s : RaftState) (t : Nat) :
    (stepDown s t).committedId = s.committedId := by
  by_cases h : s.currentTerm < t <;> simp [stepDown, updateLogMetadata, h]

theorem step_mono {s s' : RaftState} (h : Step s s') :
    s.currentTerm ≤ s'.currentTerm ∧ s.committedId ≤ s'.committedId := by
  cases h with
  | startElection h1 h2 =>
      simp only [startNewElection, updateLogMetadata]
      split
      · exact ⟨Nat.le_refl _, Nat.le_refl _⟩
      · exact ⟨Nat.le_succ _, Nat.le_refl _⟩
  | stepDownHigher t ht =>
      exact ⟨stepDown_term_le s t, le_of_eq (stepDown_committedId s t).symm⟩
  | abortElectionHigher t hc ht =>
      simp only [abortElection, updateLogMetadata]
      exact ⟨Nat.le_of_lt ht, Nat.le_refl _⟩
  | quorumVotes hc =>
      exact ⟨Nat.le_refl _, Nat.le_refl _⟩
  | appendEntryFrom req =>
      simp only [handleAppendEntry]
      split
      · exact ⟨Nat.le_refl _, Nat.le_refl _⟩
      · split
        · -- the server stepped down to req.term before processing
          split
          · exact ⟨stepDown_term_le s req.term, le_of_eq (stepDown_committedId s req.term).symm⟩
          · dsimp only
            rw [applyEntries_currentTerm, applyEntries_committedId]
            dsimp only
            refine ⟨stepDown_term_le s req.term, ?_⟩
            rw [stepDown_committedId]
            exact le_max_left _ _
        · split
          · exact ⟨Nat.le_refl _, Nat.le_refl _⟩
          · dsimp only
            rw [applyEntries_currentTerm, applyEntries_committedId]
            dsimp only
            exact ⟨Nat.le_refl _, le_max_left _ _⟩
  | requestVoteFrom req =>
      simp only [handleRequestVote]
      split
      · exact ⟨Nat.le_refl _, Nat.le_refl _⟩
      · split
        · split
          · exact ⟨stepDown_term_le s req.term, le_of_eq (stepDown_committedId s req.term).symm⟩
          · exact ⟨stepDown_term_le s req.term, le_of_eq (stepDown_committedId s req.term).symm⟩
        · split
          · exact ⟨Nat.le_refl _, Nat.le_refl _⟩
          · exact ⟨Nat.le_refl _, Nat.le_refl _⟩
  | voteResponseFrom resp =>
      simp only [handleVoteResponse]
      split
      · rename_i hlt
        split
        · simp only [abortElection, updateLogMetadata]
          exact ⟨Nat.le_of_lt hlt, Nat.le_refl _⟩
        · exact ⟨stepDown_term_le s resp.term, le_of_eq (stepDown_committedId s resp.term).symm⟩
      · exact ⟨Nat.le_refl _, Nat.le_refl _⟩
  | advanceCommit n =>
      simp only [advanceCommittedId]
      split
      · rename_i hcond
        exact ⟨Nat.le_refl _, Nat.le_of_lt hcond.2.1⟩
      · exact ⟨Nat.le_refl _, Nat.le_refl _⟩
  | clientAppend e hl =>
      simp only [raftAppend]
      split
      · exact ⟨Nat.le_refl _, Nat.le_refl _⟩
      · exact ⟨Nat.le_refl _, Nat.le_refl _⟩

/-- C3: along any sequence of protocol steps — any interleaving of
elections, step-downs, vote-response handling, append handling, commit
advancement and leader appends — the server's `current_term` never
decreases and its `committed_id` never decreases. -/
theorem currentTerm_committedId_monotone (s s' : RaftState)
    (h : Relation.ReflTransGen Step s s') :
    s.currentTerm ≤ s'.currentTerm ∧ s.committedId ≤ s'.committedId := by
  induction h with
  | refl => exact ⟨Nat.le_refl _, Nat.le_refl _⟩
  | tail _hsteps hstep ih =>
      have hs := step_mono hstep
      exact ⟨le_trans ih.1 hs.1, le_trans ih.2 hs.2⟩

/-- The spec's initial state (§4.4): follower, term 0, no vote, empty log,
nothing committed, blank configuration. -/
def initState : RaftState :=
  { state := .follower
    currentTerm := 0
    votedFor := 0
    serverId := 1
    log := ⟨[]⟩
    committedId := 0
    leaderId := 0
    configuration := ⟨.blank, 0, [], []⟩
    persistedTerm := 0
    persistedVotedFor := 0 }

/-- A configuration entry naming servers 1 and 2, as replicated by a
leader with id 2. -/
def demoConfigEntry : Entry :=
  { entryId := 0, term := 1, type := .configuration, data := ""
    configuration := ⟨[(1, "addr1"), (2, "addr2")], []⟩ }

/-- The AppendEntry request that installs `demoConfigEntry` on a fresh
server. -/
def demoAEReq : AppendEntryRequest :=
  { term := 1, leaderId := 2, prevLogId := 0, prevLogTerm := 0
    entries := [demoConfigEntry], leaderCommit := 0 }

/-- The fresh server after handling `demoAEReq`: a follower in term 1 with
a stable two-server configuration. -/
def demoFollower : RaftState := (handleAppendEntry initState demoAEReq).1

/-- `demoFollower` after its election timeout fires: a candidate in
term 2. -/
def demoCandidate : RaftState := startNewElection demoFollower

/-- C3 witness: monotonicity applied along the concrete two-step run from
the initial state to `demoCandidate`. -/
theorem currentTerm_committedId_monotone_witness :
    initState.currentTerm ≤ demoCandidate.currentTerm ∧
    initState.committedId ≤ demoCandidate.committedId :=
  currentTerm_committedId_monotone initState demoCandidate
    (Relation.ReflTransGen.tail
      (Relation.ReflTransGen.single (Step.appendEntryFrom initState demoAEReq))
      (Step.startElection demoFollower (by decide) (Or.inl (by decide))))

/-- C1: for a RequestVote request whose term equals the local
`current_term`, the vote is granted iff (the server has not voted this
term, i.e. `voted_for = 0`, or already voted for this candidate) and the
candidate's log is at least as up-to-date — `last_log_term` greater than
the local last log term, or equal terms and `last_log_id` at least the
local last log id — and granting records `voted_for = candidate` and
persists it in the state returned with the response. -/
theorem handleRequestVote_equal_term_spec (s : RaftState) (req : RequestVoteRequest)
    (h : req.term = s.currentTerm) :
    ((handleRequestVote s req).2.granted = true ↔
      ((s.votedFor = 0 ∨ s.votedFor = req.candidateId) ∧
        (s.log.getTerm s.log.getLastLogId < req.lastLogTerm ∨
          (req.lastLogTerm = s.log.getTerm s.log.getLastLogId ∧
            s.log.getLastLogId ≤ req.lastLogId)))) ∧
    ((handleRequestVote s req).2.granted = true →
      (handleRequestVote s req).1.votedFor = req.candidateId ∧
      (handleRequestVote s req).1.persistedVotedFor = req.candidateId) := by
  have h1 : ¬ req.term < s.currentTerm := by omega
  have h2 : ¬ s.currentTerm < req.term := by omega
  simp only [handleRequestVote, if_neg h1, if_neg h2]
  split
  · rename_i hcond
    simp only [logUpToDate, Bool.or_eq_true, Bool.and_eq_true, decide_eq_true_eq] at hcond
    exact ⟨⟨fun _ => hcond, fun _ => rfl⟩, fun _ => ⟨rfl, rfl⟩⟩
  · rename_i hcond
    simp only [logUpToDate, Bool.or_eq_true, Bool.and_eq_true, decide_eq_true_eq] at hcond
    simp only [Bool.false_eq_true, false_iff, false_implies, and_true]
    exact hcond

/-- C1 witness: the theorem applied to a concrete same-term request that
is granted. -/
theorem handleRequestVote_equal_term_spec_witness :
    ((handleRequestVote demoFollower
        ⟨demoFollower.currentTerm, 2, 5, 9⟩).2.granted = true ↔
      ((demoFollower.votedFor = 0 ∨ demoFollower.votedFor = 2) ∧
        (demoFollower.log.getTerm demoFollower.log.getLastLogId < 9 ∨
          (9 = demoFollower.log.getTerm demoFollower.log.getLastLogId ∧
            demoFollower.log.getLastLogId ≤ 5)))) ∧
    ((handleRequestVote demoFollower
        ⟨demoFollower.currentTerm, 2, 5, 9⟩).2.granted = true →
      (handleRequestVote demoFollower ⟨demoFollower.currentTerm, 2, 5, 9⟩).1.votedFor = 2 ∧
      (handleRequestVote demoFollower
        ⟨demoFollower.currentTerm, 2, 5, 9⟩).1.persistedVotedFor = 2) :=
  handleRequestVote_equal_term_spec demoFollower ⟨demoFollower.currentTerm, 2, 5, 9⟩ rfl

/-- A RequestVote response carrying term 3, higher than
`demoCandidate`'s term 2. -/
def demoResp : RequestVoteResponse := ⟨3, false, 0⟩

/-- C2 counterexample: `demoCandidate` is a reachable candidate state
(initial state, then a configuration-installing AppendEntry, then an
election timeout); on a RequestVote response carrying a strictly higher
term it stays a candidate — `abortElection` — instead of transitioning to
follower as the claim requires for responses. -/
theorem candidate_higher_term_response_stays_candidate :
    Relation.ReflTransGen Step initState demoCandidate ∧
    demoCandidate.state = .candidate ∧
    demoCandidate.currentTerm < demoResp.term ∧
    (handleVoteResponse demoCandidate demoResp).state = .candidate ∧
    ¬ (handleVoteResponse demoCandidate demoResp).state = .follower :=
  ⟨Relation.ReflTransGen.tail
      (Relation.ReflTransGen.single (Step.appendEntryFrom initState demoAEReq))
      (Step.startElection demoFollower (by decide) (Or.inl (by decide))),
    by decide, by decide, by decide, by decide⟩

/-- C2 (amended): a candidate that observes an incoming RPC request
(AppendEntry or RequestVote) with a strictly higher term transitions to
follower; a candidate that observes a strictly higher term in a response
to its own RequestVote aborts the election — it adopts the higher term,
clears and persists its vote, but remains in the candidate state until
the next election timeout. -/
theorem candidate_higher_term_transitions (s : RaftState)
    (req : AppendEntryRequest) (rv : RequestVoteRequest) (resp : RequestVoteResponse)
    (hc : s.state = .candidate) (h1 : s.currentTerm < req.term)
    (h2 : s.currentTerm < rv.term) (h3 : s.currentTerm < resp.term) :
    (handleAppendEntry s req).1.state = .follower ∧
    (handleRequestVote s rv).1.state = .follower ∧
    (handleVoteResponse s resp).state = .candidate ∧
    (handleVoteResponse s resp).currentTerm = resp.term ∧
    (handleVoteResponse s resp).votedFor = 0 ∧
    (handleVoteResponse s resp).persistedVotedFor = 0 := by
  refine ⟨?_, ?_, ?_, ?_, ?_, ?_⟩
  · simp only [handleAppendEntry, if_neg (by omega : ¬ req.term < s.currentTerm),
      if_pos (Or.inl h1)]
    split
    · exact stepDown_state s req.term
    · dsimp only
      rw [applyEntries_state]
      exact stepDown_state s req.term
  · simp only [handleRequestVote, if_neg (by omega : ¬ rv.term < s.currentTerm), if_pos h2]
    split
    · simp only [updateLogMetadata]
      exact stepDown_state s rv.term
    · exact stepDown_state s rv.term
  · simp only [handleVoteResponse]
    rw [if_pos h3, if_pos hc]
    exact hc
  · simp only [handleVoteResponse]
    rw [if_pos h3, if_pos hc]
    rfl
  · simp only [handleVoteResponse]
    rw [if_pos h3, if_pos hc]
    rfl
  · simp only [handleVoteResponse]
    rw [if_pos h3, if_pos hc]
    rfl

/-- C2 witness for the amended theorem, at the reachable candidate and
concrete higher-term messages. -/
theorem candidate_higher_term_transitions_witness :
    (handleAppendEntry demoCandidate ⟨3, 2, 1, 1, [], 0⟩).1.state = .follower ∧
    (handleRequestVote demoCandidate ⟨3, 2, 5, 9⟩).1.state = .follower ∧
    (handleVoteResponse demoCandidate demoResp).state = .candidate ∧
    (handleVoteResponse demoCandidate demoResp).currentTerm = demoResp.term ∧
    (handleVoteResponse demoCandidate demoResp).votedFor = 0 ∧
    (handleVoteResponse demoCandidate demoResp).persistedVotedFor = 0 :=
  candidate_higher_term_transitions demoCandidate ⟨3, 2, 1, 1, [], 0⟩ ⟨3, 2, 5, 9⟩ demoResp
    (by decide) (by decide) (by decide) (by decide)

theorem head?_dropWhile_false {α : Type} (p : α → Bool) (xs : List α) (a : α)
    (h : (xs.dropWhile p).head? = some a) : p a = false := by
  induction xs with
  | nil => simp [List.dropWhile] at h
  | cons x xs ih =>
      by_cases hp : p x = true
      · rw [List.dropWhile_cons_of_pos hp] at h
        exact ih h
      · rw [List.dropWhile_cons_of_neg hp] at h
        simp only [List.head?, Option.some_inj] at h
        subst h
        simp only [Bool.not_eq_true] at hp
        exact hp

theorem getBeginLastTermId_ne_nil {l : Log} (h : l.entries ≠ []) :
    l.getBeginLastTermId
      = (l.entries.reverse.dropWhile (lastTermPred l)).length + 1 := by
  rcases l with ⟨entries⟩
  cases entries with
  | nil => exact absurd rfl h
  | cons x xs => rfl

theorem getTerm_eq_get (l : Log) (i : Nat) (h1 : 1 ≤ i) (h2 : i - 1 < l.entries.length) :
    l.getTerm i = (l.entries.get ⟨i - 1, h2⟩).term := by
  simp only [Log.getTerm, if_neg (by omega : ¬ i = 0)]
  rw [List.getElem?_eq_getElem h2]
  rfl

/-- The terms stored along the log never decrease (a consequence of the
log-matching discipline; taken as a hypothesis on the log). -/
def Log.TermsNondec (l : Log) : Prop :=
  List.Pairwise (· ≤ ·) (l.entries.map Entry.term)

theorem getTerm_mono (l : Log) (h : l.TermsNondec) (i j : Nat)
    (h1 : 1 ≤ i) (hij : i ≤ j) (hj : j ≤ l.entries.length) :
    l.getTerm i ≤ l.getTerm j := by
  rcases eq_or_lt_of_le hij with heq | hlt
  · subst heq
    exact Nat.le_refl _
  · have hi : i - 1 < l.entries.length := by omega
    have hjl : j - 1 < l.entries.length := by omega
    rw [getTerm_eq_get l i h1 hi, getTerm_eq_get l j (by omega) hjl]
    have hp := List.pairwise_iff_getElem.mp h (i - 1) (j - 1)
      (by simpa using hi) (by simpa using hjl) (by omega)
    simpa using hp

theorem getTerm_eq_some {l : Log} {i : Nat} {e : Entry} (h1 : 1 ≤ i)
    (h : l.entries[i - 1]? = some e) : l.getTerm i = e.term := by
  simp only [Log.getTerm, if_neg (by omega : ¬ i = 0), h, Option.map_some', Option.getD_some]

theorem getElem?_eq_takeWhile {α : Type} (p : α → Bool) (xs : List α) (i : Nat)
    (h : i < (xs.takeWhile p).length) : xs[i]? = (xs.takeWhile p)[i]? := by
  conv_lhs => rw [← List.takeWhile_append_dropWhile p xs]
  exact List.getElem?_append_left h

theorem getElem?_at_dropWhile_head {α : Type} (p : α → Bool) (xs : List α) :
    xs[(xs.takeWhile p).length]? = (xs.dropWhile p)[0]? := by
  induction xs with
  | nil => rfl
  | cons x xs ih =>
      by_cases hp : p x = true
      · rw [List.takeWhile_cons_of_pos hp, List.dropWhile_cons_of_pos hp]
        simpa using ih
      · rw [List.takeWhile_cons_of_neg hp, List.dropWhile_cons_of_neg hp]
        simp

theorem lastTermPred_head (l : Log) (hne : l.entries ≠ []) :
    ∃ e0 rest, l.entries.reverse = e0 :: rest ∧ lastTermPred l e0 = true := by
  have hn : 1 ≤ l.entries.length := List.length_pos.mpr hne
  have hrne : l.entries.reverse ≠ [] := by
    simpa using hne
  obtain ⟨e0, rest, hrev⟩ := List.exists_cons_of_ne_nil hrne
  refine ⟨e0, rest, hrev, ?_⟩
  have h0 : l.entries.reverse[0]? = some e0 := by
    rw [hrev]
    simp
  have h1 : l.entries.reverse[0]? = l.entries[l.entries.length - 1]? := by
    have := List.getElem?_reverse (l := l.entries) (i := 0) (by omega)
    simpa using this
  have h2 : l.entries[l.entries.length - 1]? = some e0 := by
    rw [← h1, h0]
  have h3 : l.getTerm l.getLastLogId = e0.term := getTerm_eq_some hn h2
  simp only [lastTermPred, h3, beq_self_eq_true]

theorem takeWhile_lastTermPred_pos (l : Log) (hne : l.entries ≠ []) :
    1 ≤ (l.entries.reverse.takeWhile (lastTermPred l)).length := by
  obtain ⟨e0, rest, hrev, hpred⟩ := lastTermPred_head l hne
  rw [hrev, List.takeWhile_cons_of_pos hpred]
  simp

theorem takeWhile_dropWhile_length (l : Log) :
    (l.entries.reverse.takeWhile (lastTermPred l)).length
      + (l.entries.reverse.dropWhile (lastTermPred l)).length = l.entries.length := by
  have h := congrArg List.length
    (List.takeWhile_append_dropWhile (lastTermPred l) l.entries.reverse)
  rw [List.length_append, List.length_reverse] at h
  exact h

theorem getBeginLastTermId_bounds (l : Log) (hne : l.entries ≠ []) :
    1 ≤ l.getBeginLastTermId ∧ l.getBeginLastTermId ≤ l.entries.length := by
  have h1 := takeWhile_lastTermPred_pos l hne
  have h2 := takeWhile_dropWhile_length l
  rw [getBeginLastTermId_ne_nil hne]
  omega

theorem getTerm_getBeginLastTermId (l : Log) (hne : l.entries ≠ []) :
    l.getTerm l.getBeginLastTermId = l.getTerm l.getLastLogId := by
  have hn : 1 ≤ l.entries.length := List.length_pos.mpr hne
  have hsum := takeWhile_dropWhile_length l
  have hpos := takeWhile_lastTermPred_pos l hne
  have hb := getBeginLastTermId_ne_nil hne
  have hlt1 : (l.entries.reverse.takeWhile (lastTermPred l)).length - 1
      < (l.entries.reverse.takeWhile (lastTermPred l)).length := by omega
  obtain ⟨a, ha⟩ : ∃ a, (l.entries.reverse.takeWhile
      (lastTermPred l))[(l.entries.reverse.takeWhile (lastTermPred l)).length - 1]? = some a :=
    ⟨_, List.getElem?_eq_getElem hlt1⟩
  have hamem : a ∈ l.entries.reverse.takeWhile (lastTermPred l) := by
    rcases List.getElem?_eq_some.mp ha with ⟨hh, hget⟩
    rw [← hget]
    exact List.getElem_mem hh
  have hpred := List.mem_takeWhile_imp hamem
  have happ : l.entries.reverse[(l.entries.reverse.takeWhile (lastTermPred l)).length - 1]?
      = (l.entries.reverse.takeWhile
          (lastTermPred l))[(l.entries.reverse.takeWhile (lastTermPred l)).length - 1]? :=
    getElem?_eq_takeWhile (lastTermPred l) l.entries.reverse _ (by omega)
  have hrev := List.getElem?_reverse (l := l.entries)
    (i := (l.entries.reverse.takeWhile (lastTermPred l)).length - 1) (by omega)
  rw [show l.entries.length - 1 - ((l.entries.reverse.takeWhile (lastTermPred l)).length - 1)
      = (l.entries.reverse.dropWhile (lastTermPred l)).length from by omega] at hrev
  have hcomb : l.entries[(l.entries.reverse.dropWhile (lastTermPred l)).length]? = some a := by
    rw [← hrev, happ]
    exact ha
  have hgt : l.getTerm l.getBeginLastTermId = a.term := by
    refine getTerm_eq_some (by omega) ?_
    rw [show l.getBeginLastTermId - 1
        = (l.entries.reverse.dropWhile (lastTermPred l)).length from by omega]
    exact hcomb
  rw [hgt]
  simpa [lastTermPred, beq_iff_eq] using hpred

theorem getTerm_before_getBeginLastTermId (l : Log) (hne : l.entries ≠ [])
    (h2 : 2 ≤ l.getBeginLastTermId) :
    l.getTerm (l.getBeginLastTermId - 1) ≠ l.getTerm l.getLastLogId := by
  have hn : 1 ≤ l.entries.length := List.length_pos.mpr hne
  have hsum := takeWhile_dropWhile_length l
  have hpos := takeWhile_lastTermPred_pos l hne
  have hb := getBeginLastTermId_ne_nil hne
  have hd1 : 1 ≤ (l.entries.reverse.dropWhile (lastTermPred l)).length := by omega
  obtain ⟨e1, he1⟩ : ∃ e1, (l.entries.reverse.dropWhile (lastTermPred l))[0]? = some e1 :=
    ⟨_, List.getElem?_eq_getElem (by omega)⟩
  have hhead : (l.entries.reverse.dropWhile (lastTermPred l)).head? = some e1 := by
    rw [List.head?_eq_getElem?]
    exact he1
  have hfalse := head?_dropWhile_false (lastTermPred l) _ _ hhead
  have hdw : l.entries.reverse[(l.entries.reverse.takeWhile (lastTermPred l)).length]?
      = (l.entries.reverse.dropWhile (lastTermPred l))[0]? :=
    getElem?_at_dropWhile_head (lastTermPred l) l.entries.reverse
  have hrev := List.getElem?_reverse (l := l.entries)
    (i := (l.entries.reverse.takeWhile (lastTermPred l)).length) (by omega)
  rw [show l.entries.length - 1 - (l.entries.reverse.takeWhile (lastTermPred l)).length
      = (l.entries.reverse.dropWhile (lastTermPred l)).length - 1 from by omega] at hrev
  have hcomb : l.entries[(l.entries.reverse.dropWhile (lastTermPred l)).length - 1]?
      = some e1 := by
    rw [← hrev, hdw]
    exact he1
  have hgt : l.getTerm (l.getBeginLastTermId - 1) = e1.term := by
    refine getTerm_eq_some (by omega) ?_
    rw [show l.getBeginLastTermId - 1 - 1
        = (l.entries.reverse.dropWhile (lastTermPred l)).length - 1 from by omega]
    exact hcomb
  rw [hgt]
  simpa [lastTermPred, beq_iff_eq] using hfalse

/-- Modelled from the spec: `RaftConsensus.cc` is missing.
`RaftConsensus::isLeaderReady` (`RaftConsensus.h` lines 770-779): true iff
the leader has committed all entries from prior terms — equivalently, the
first entry of the log's last term is committed.  `Log::getBeginLastTermId`
(`RaftLog.h` 60-66, spec §4.1) is "used to decide when a new leader has
committed at least one entry of its own term". -/
def isLeaderReady (s : RaftState) : Bool :=
  decide (s.log.getBeginLastTermId ≤ s.committedId)

/-- Modelled from the spec: `RaftConsensus.cc` is missing.
`RaftConsensus::replicate` (`RaftConsensus.h` lines 618-624) gated by
leader-readiness (spec §4.4: "Until then, client `replicate` calls
wait"): `none` stands for the call waiting (or `not_leader`); otherwise
the operation is appended as a data entry in the current term. -/
def replicate (s : RaftState) (op : String) : Option (RaftState × Nat) :=
  if s.state = .leader ∧ isLeaderReady s = true then
    some (raftAppend s ⟨0, s.currentTerm, .data, op, ⟨[], []⟩⟩)
  else none

/-- Modelled from the spec: `RaftConsensus.cc` is missing.  Applying a
client-submitted configuration change (`setConfiguration`,
`RaftConsensus.h` 626-638) is gated by the same leader-readiness check
(spec §4.4 Leader-readiness); `none` stands for the call not being
serviced yet. -/
def applyConfigChange (s : RaftState) (desc : ConfigurationDescription) :
    Option (RaftState × Nat) :=
  if s.state = .leader ∧ isLeaderReady s = true then
    some (raftAppend s ⟨0, s.currentTerm, .configuration, "", desc⟩)
  else none

/-- Modelled from the spec: `RaftConsensus.cc` is missing.  A non-stale
read (`getLastCommittedId`, `RaftConsensus.h` 588-593) gated by
leader-readiness (spec §4.4 Leader-readiness); the leader-lease
confirmation round is not modelled (untimed). -/
def readNonStale (s : RaftState) : Option Nat :=
  if s.state = .leader ∧ isLeaderReady s = true then some s.committedId else none

/-- C8: on a leader whose log is nonempty with nondecreasing terms ending
in its own current term (the shape guaranteed after `becomeLeader`),
`isLeaderReady` holds iff at least one entry of the leader's own term is
committed; a `replicate`, a client-submitted configuration change, or a
non-stale read is serviced only in that case, and while no own-term entry
is committed all three wait. -/
theorem leader_readiness_spec (s : RaftState) (op : String)
    (desc : ConfigurationDescription)
    (hne : s.log.entries ≠ []) (hsorted : s.log.TermsNondec)
    (hlast : s.log.getTerm s.log.getLastLogId = s.currentTerm) :
    (isLeaderReady s = true ↔
      ∃ i, 1 ≤ i ∧ i ≤ s.committedId ∧ s.log.getTerm i = s.currentTerm) ∧
    (∀ r, replicate s op = some r →
      ∃ i, 1 ≤ i ∧ i ≤ s.committedId ∧ s.log.getTerm i = s.currentTerm) ∧
    (∀ r, applyConfigChange s desc = some r →
      ∃ i, 1 ≤ i ∧ i ≤ s.committedId ∧ s.log.getTerm i = s.currentTerm) ∧
    (∀ r, readNonStale s = some r →
      ∃ i, 1 ≤ i ∧ i ≤ s.committedId ∧ s.log.getTerm i = s.currentTerm) ∧
    ((¬ ∃ i, 1 ≤ i ∧ i ≤ s.committedId ∧ s.log.getTerm i = s.currentTerm) →
      replicate s op = none ∧ applyConfigChange s desc = none ∧
        readNonStale s = none) := by
  have hn : 1 ≤ s.log.entries.length := List.length_pos.mpr hne
  have hlen : s.log.getLastLogId = s.log.entries.length := rfl
  have hbounds := getBeginLastTermId_bounds s.log hne
  have hbt := getTerm_getBeginLastTermId s.log hne
  have hmain : isLeaderReady s = true ↔
      ∃ i, 1 ≤ i ∧ i ≤ s.committedId ∧ s.log.getTerm i = s.currentTerm := by
    simp only [isLeaderReady, decide_eq_true_eq]
    constructor
    · intro hready
      exact ⟨s.log.getBeginLastTermId, hbounds.1, hready, by rw [hbt, hlast]⟩
    · rintro ⟨i, h1, h2, hti⟩
      by_contra hnot
      have hib : i < s.log.getBeginLastTermId := by omega
      have hb2 : 2 ≤ s.log.getBeginLastTermId := by omega
      have hdiff := getTerm_before_getBeginLastTermId s.log hne hb2
      have hle1 : s.log.getTerm i ≤ s.log.getTerm (s.log.getBeginLastTermId - 1) :=
        getTerm_mono s.log hsorted i (s.log.getBeginLastTermId - 1) h1 (by omega)
          (by have := hbounds.2; omega)
      have hle2 : s.log.getTerm (s.log.getBeginLastTermId - 1)
          ≤ s.log.getTerm s.log.getLastLogId :=
        getTerm_mono s.log hsorted _ _ (by omega) (by have := hbounds.2; omega)
          (Nat.le_refl _)
      rw [hti] at hle1
      rw [hlast] at hle2
      rw [hlast] at hdiff
      exact hdiff (le_antisymm hle2 hle1)
  have hwait : (¬ ∃ i, 1 ≤ i ∧ i ≤ s.committedId ∧ s.log.getTerm i = s.currentTerm) →
      ¬ (s.state = .leader ∧ isLeaderReady s = true) := by
    intro hnot hcond
    exact hnot (hmain.mp hcond.2)
  refine ⟨hmain, ?_, ?_, ?_, ?_⟩
  · intro r hr
    simp only [replicate] at hr
    split at hr
    · rename_i hcond
      exact hmain.mp hcond.2
    · cases hr
  · intro r hr
    simp only [applyConfigChange] at hr
    split at hr
    · rename_i hcond
      exact hmain.mp hcond.2
    · cases hr
  · intro r hr
    simp only [readNonStale] at hr
    split at hr
    · rename_i hcond
      exact hmain.mp hcond.2
    · cases hr
  · intro hnot
    refine ⟨?_, ?_, ?_⟩
    · simp only [replicate]
      rw [if_neg (hwait hnot)]
    · simp only [applyConfigChange]
      rw [if_neg (hwait hnot)]
    · simp only [readNonStale]
      rw [if_neg (hwait hnot)]

/-- A leader in term 2 whose two-entry log ends in its own term, with both
entries committed. -/
def demoLeader : RaftState :=
  { state := .leader
    currentTerm := 2
    votedFor := 1
    serverId := 1
    log := ⟨[⟨1, 1, .data, "x", ⟨[], []⟩⟩, ⟨2, 2, .data, "y", ⟨[], []⟩⟩]⟩
    committedId := 2
    leaderId := 1
    configuration := ⟨.stable, 1, [(1, "a")], []⟩
    persistedTerm := 2
    persistedVotedFor := 1 }

/-- C8 witness: the theorem applied to the concrete ready leader. -/
theorem leader_readiness_spec_witness :
    (isLeaderReady demoLeader = true ↔
      ∃ i, 1 ≤ i ∧ i ≤ demoLeader.committedId ∧
        demoLeader.log.getTerm i = demoLeader.currentTerm) ∧
    (∀ r, replicate demoLeader "op" = some r →
      ∃ i, 1 ≤ i ∧ i ≤ demoLeader.committedId ∧
        demoLeader.log.getTerm i = demoLeader.currentTerm) ∧
    (∀ r, applyConfigChange demoLeader ⟨[], []⟩ = some r →
      ∃ i, 1 ≤ i ∧ i ≤ demoLeader.committedId ∧
        demoLeader.log.getTerm i = demoLeader.currentTerm) ∧
    (∀ r, readNonStale demoLeader = some r →
      ∃ i, 1 ≤ i ∧ i ≤ demoLeader.committedId ∧
        demoLeader.log.getTerm i = demoLeader.currentTerm) ∧
    ((¬ ∃ i, 1 ≤ i ∧ i ≤ demoLeader.committedId ∧
        demoLeader.log.getTerm i = demoLeader.currentTerm) →
      replicate demoLeader "op" = none ∧ applyConfigChange demoLeader ⟨[], []⟩ = none ∧
        readNonStale demoLeader = none) :=
  leader_readiness_spec demoLeader "op" ⟨[], []⟩ (by decide)
    (by
      simp only [Log.TermsNondec, demoLeader]
      decide)
    (by decide)

/-! ### Client-facing library (`src/Client/Client.h`) -/

namespace Client

/-- `NO_ID = ~0UL` (`Client.h` line 45) on the 64-bit platform the library
targets: the all-ones 64-bit value. -/
def NO_ID : Nat := 2 ^ 64 - 1

/-- A client-visible log entry (`Client.h` lines 50-98): an id, the list
of entry ids it invalidates, and its data blob. -/
structure Entry where
  id : Nat
  invalidates : List Nat
  data : String
deriving DecidableEq

/-- Modelled from the spec: the client-side implementation
(`ClientImpl`/`MockClientImpl`) is missing.  The state of one named log:
the entries so far and the id the next created entry will receive.  Ids
are "monotonically increasing, but some numbers may be skipped"
(`Client.h` 34-39); the first valid entry id is 0, so a fresh log has
`nextId = 0` ("0 would indicate the log must be empty", `Client.h`
124-127). -/
structure ClientLog where
  entries : List Entry
  nextId : Nat
deriving DecidableEq

/-- The empty named log. -/
def ClientLog.empty : ClientLog := ⟨[], 0⟩

/-- Modelled from the spec: the client-side implementation is missing.
`Log::getLastId` (`Client.h` lines 170-177): the ID for the head of the
log, or `NO_ID` if the log is empty. -/
def ClientLog.getLastId (l : ClientLog) : Nat :=
  match l.entries.getLast? with
  | none => NO_ID
  | some e => e.id

/-- Modelled from the spec: the client-side implementation is missing.
`Log::append` (`Client.h` lines 120-135): conditional on `expectedId`
being the id this entry would receive (`NO_ID` appends unconditionally);
returns the created entry id, or `NO_ID` — leaving the log unchanged — if
the condition failed. -/
def ClientLog.append (l : ClientLog) (e : Entry) (expectedId : Nat) : ClientLog × Nat :=
  if expectedId = NO_ID ∨ expectedId = l.nextId then
    (⟨l.entries ++ [{ e with id := l.nextId }], l.nextId + 1⟩, l.nextId)
  else (l, NO_ID)

/-- Modelled from the spec: the client-side implementation is missing.
`Log::invalidate` (`Client.h` lines 137-156): "just a convenient
short-cut to appending an Entry" with no data. -/
def ClientLog.invalidate (l : ClientLog) (invalidates : List Nat) (expectedId : Nat) :
    ClientLog × Nat :=
  l.append ⟨0, invalidates, ""⟩ expectedId

/-- Named logs constructible through the client interface. -/
inductive ClientLog.Reachable : ClientLog → Prop where
  | empty : ClientLog.Reachable ClientLog.empty
  | append (l : ClientLog) (e : Entry) (expectedId : Nat) :
      ClientLog.Reachable l → ClientLog.Reachable (l.append e expectedId).1
  | invalidate (l : ClientLog) (inv : List Nat) (expectedId : Nat) :
      ClientLog.Reachable l → ClientLog.Reachable (l.invalidate inv expectedId).1

theorem ClientLog.Reachable.last_id_lt {l : ClientLog} (h : l.Reachable) :
    (l.entries = [] → l.nextId = 0) ∧
    ∀ e, l.entries.getLast? = some e → e.id < l.nextId := by
  induction h with
  | empty => exact ⟨fun _ => rfl, by intro e he; simp [ClientLog.empty] at he⟩
  | append l e expectedId _ ih =>
      simp only [ClientLog.append]
      split
      · constructor
        · intro hemp
          simp at hemp
        · intro e1 he1
          rw [List.getLast?_append] at he1
          simp at he1
          subst he1
          simp
      · exact ih
  | invalidate l inv expectedId _ ih =>
      simp only [ClientLog.invalidate, ClientLog.append]
      split
      · constructor
        · intro hemp
          simp at hemp
        · intro e1 he1
          rw [List.getLast?_append] at he1
          simp at he1
          subst he1
          simp
      · exact ih

/-- C10: client entry-id numbering differs from the core log's: `NO_ID`
is `2^64 - 1` (not 0) and the first entry appended to a fresh named log
gets id 0, whereas the core `Log::append` on an empty log assigns id 1
with 0 reserved; on any reachable named log that has not exhausted the id
space, `getLastId` returns `NO_ID` exactly when the log is empty, and
`append`/`invalidate` return `NO_ID` — leaving the log unchanged — exactly
when the `expectedId` condition fails, else the newly created entry's
id. -/
theorem client_entry_id_numbering_spec (l : ClientLog) (hr : l.Reachable)
    (hb : l.nextId < NO_ID) (e : Entry) (inv : List Nat) (expectedId : Nat) :
    NO_ID = 2 ^ 64 - 1 ∧ NO_ID ≠ 0 ∧
    ((ClientLog.empty.append e NO_ID).2 = 0) ∧
    (((⟨[]⟩ : Log).append demoEntryA).2 = 1) ∧
    (l.getLastId = NO_ID ↔ l.entries = []) ∧
    ((l.append e expectedId).2 = NO_ID ↔
      ¬ (expectedId = NO_ID ∨ expectedId = l.nextId)) ∧
    ((l.append e expectedId).2 = NO_ID → (l.append e expectedId).1 = l) ∧
    ((l.append e expectedId).2 ≠ NO_ID →
      (l.append e expectedId).2 = l.nextId ∧
      (l.append e expectedId).1.entries.getLast?
        = some { e with id := l.nextId }) ∧
    ((l.invalidate inv expectedId).2 = NO_ID ↔
      ¬ (expectedId = NO_ID ∨ expectedId = l.nextId)) := by
  have hinv := hr.last_id_lt
  refine ⟨rfl, by decide, by simp [ClientLog.append, ClientLog.empty], rfl, ?_, ?_, ?_, ?_, ?_⟩
  · constructor
    · intro hlast
      rcases hemp : l.entries.getLast? with _ | e1
      · exact List.getLast?_eq_none_iff.mp hemp
      · exfalso
        have := hinv.2 e1 hemp
        simp only [ClientLog.getLastId, hemp] at hlast
        omega
    · intro hemp
      simp [ClientLog.getLastId, hemp]
  · simp only [ClientLog.append]
    split
    · rename_i hcond
      simp only [iff_false_intro (not_not_intro hcond), iff_false]
      omega
    · rename_i hcond
      simp [hcond]
  · simp only [ClientLog.append]
    split
    · intro hfail
      exfalso
      omega
    · intro _
      rfl
  · simp only [ClientLog.append]
    split
    · intro _
      exact ⟨rfl, by rw [List.getLast?_append]; simp⟩
    · intro hfail
      exact absurd rfl hfail
  · simp only [ClientLog.invalidate, ClientLog.append]
    split
    · rename_i hcond
      simp only [iff_false_intro (not_not_intro hcond), iff_false]
      omega
    · rename_i hcond
      simp [hcond]

/-- C10 witness: applied to a one-entry named log reached by an
unconditional append, with a conditional append whose expectation
fails. -/
theorem client_entry_id_numbering_spec_witness :
    NO_ID = 2 ^ 64 - 1 ∧ NO_ID ≠ 0 ∧
    ((ClientLog.empty.append ⟨9, [], "a"⟩ NO_ID).2 = 0) ∧
    (((⟨[]⟩ : Log).append demoEntryA).2 = 1) ∧
    ((ClientLog.empty.append ⟨9, [], "a"⟩ NO_ID).1.getLastId = NO_ID ↔
      (ClientLog.empty.append ⟨9, [], "a"⟩ NO_ID).1.entries = []) ∧
    (((ClientLog.empty.append ⟨9, [], "a"⟩ NO_ID).1.append ⟨9, [], "b"⟩ 7).2 = NO_ID ↔
      ¬ (7 = NO_ID ∨ 7 = (ClientLog.empty.append ⟨9, [], "a"⟩ NO_ID).1.nextId)) ∧
    (((ClientLog.empty.append ⟨9, [], "a"⟩ NO_ID).1.append ⟨9, [], "b"⟩ 7).2 = NO_ID →
      ((ClientLog.empty.append ⟨9, [], "a"⟩ NO_ID).1.append ⟨9, [], "b"⟩ 7).1
        = (ClientLog.empty.append ⟨9, [], "a"⟩ NO_ID).1) ∧
    (((ClientLog.empty.append ⟨9, [], "a"⟩ NO_ID).1.append ⟨9, [], "b"⟩ 7).2 ≠ NO_ID →
      ((ClientLog.empty.append ⟨9, [], "a"⟩ NO_ID).1.append ⟨9, [], "b"⟩ 7).2
        = (ClientLog.empty.append ⟨9, [], "a"⟩ NO_ID).1.nextId ∧
      ((ClientLog.empty.append ⟨9, [], "a"⟩ NO_ID).1.append ⟨9, [], "b"⟩ 7).1.entries.getLast?
        = some { id := (ClientLog.empty.append ⟨9, [], "a"⟩ NO_ID).1.nextId,
                 invalidates := ([] : List Nat), data := "b" }) ∧
    (((ClientLog.empty.append ⟨9, [], "a"⟩ NO_ID).1.invalidate [0] 7).2 = NO_ID ↔
      ¬ (7 = NO_ID ∨ 7 = (ClientLog.empty.append ⟨9, [], "a"⟩ NO_ID).1.nextId)) :=
  client_entry_id_numbering_spec (ClientLog.empty.append ⟨9, [], "a"⟩ NO_ID).1
    (ClientLog.Reachable.append ClientLog.empty ⟨9, [], "a"⟩ NO_ID ClientLog.Reachable.empty)
    (by decide) ⟨9, [], "b"⟩ [0] 7

end Client

end MingleLogCabin
